import Mathlib

/-!
Verification of the VIP Manager load-balancing core (vip_manager.go and the
utils Operation engine). The Go code is shallowly embedded: Go maps keyed by
instance name become association lists `List (String × _)` (quantifying over
all lists covers every map-iteration order), Go `int` becomes `Int` where the
code uses the `-1` sentinel, and counts become `Nat`. External effects
(instance re-fetch, the write call) are parameters of the embedded functions.
-/

namespace VipManager

/-- Embeds `utils.GceInstance` (gcp.go). -/
structure GceInstance where
  name : String
  networkInterface : String
  networkFingerprint : String
  aliasNetwork : String
  aliasIps : List String
deriving DecidableEq

/-- Embeds `utils.Type` (operation.go): the kind of an operation. -/
inductive OpType where
  | add
  | remove
deriving DecidableEq

/-- Embeds `utils.Operation` (operation.go). -/
structure Operation where
  type : OpType
  inst : GceInstance
  ips : List String
deriving DecidableEq

/-- Loop body of `minValue` (vip_manager.go): `if min < 0 || v < min { min = v }`. -/
def minStep (m : Int) (p : String × Int) : Int :=
  if m < 0 ∨ p.2 < m then p.2 else m

/-- Embeds `minValue` (vip_manager.go): fold over the map values, start `-1`. -/
def minValue (values : List (String × Int)) : Int :=
  values.foldl minStep (-1)

/-- Loop body of `maxValue` (vip_manager.go): `if max < v { max = v }`. -/
def maxStep (m : Int) (p : String × Int) : Int :=
  if m < p.2 then p.2 else m

/-- Embeds `maxValue` (vip_manager.go): fold over the map values, start `0`. -/
def maxValue (values : List (String × Int)) : Int :=
  values.foldl maxStep 0

/-- Embeds the decrement scan of `ReduceIps`: decrement the first entry whose
value equals `m` (the `break` makes it the first in iteration order). -/
def decFirst : List (String × Int) → Int → List (String × Int)
  | [], _ => []
  | (n, v) :: rest, m =>
    if v = m then (n, v - 1) :: rest else (n, v) :: decFirst rest m

/-- Embeds the increment scan of `ReduceIps`: increment the first entry whose
value equals `m`. -/
def incFirst : List (String × Int) → Int → List (String × Int)
  | [], _ => []
  | (n, v) :: rest, m =>
    if v = m then (n, v + 1) :: rest else (n, v) :: incFirst rest m

/-- One iteration of the Robin Hood loop in `ReduceIps`: decrement a node at
the (pre-iteration) maximum, then increment a node at the (pre-iteration)
minimum, scanning the already-decremented map. -/
def rhStep (t : List (String × Int)) : List (String × Int) :=
  incFirst (decFirst t (maxValue t)) (minValue t)

/-- Sum of the target values. -/
def sumVals (t : List (String × Int)) : Int :=
  (t.map (fun p => p.2)).sum

/-- Sum of squared target values: the termination measure of the loop. -/
def sumSq (t : List (String × Int)) : Int :=
  (t.map (fun p => p.2 * p.2)).sum

theorem foldl_minStep_mem (l : List (String × Int)) :
    ∀ acc : Int, l.foldl minStep acc = acc ∨ ∃ p ∈ l, l.foldl minStep acc = p.2 := by
  induction l with
  | nil => intro acc; left; rfl
  | cons x xs ih =>
    intro acc
    have hx : minStep acc x = acc ∨ minStep acc x = x.2 := by
      unfold minStep; split
      · right; rfl
      · left; rfl
    rcases ih (minStep acc x) with h | ⟨p, hp, h⟩
    · rcases hx with hx | hx
      · left; simpa [List.foldl_cons, hx] using h
      · right; exact ⟨x, List.mem_cons_self x xs, by simpa [List.foldl_cons, hx] using h⟩
    · right; exact ⟨p, List.mem_cons_of_mem x hp, by simpa [List.foldl_cons] using h⟩

theorem minValue_mem (t : List (String × Int)) (h : t ≠ []) :
    ∃ p ∈ t, minValue t = p.2 := by
  match t with
  | [] => exact absurd rfl h
  | x :: xs =>
    have hx : minStep (-1) x = x.2 := by unfold minStep; simp
    rcases foldl_minStep_mem xs x.2 with h1 | ⟨p, hp, h1⟩
    · exact ⟨x, List.mem_cons_self x xs, by simpa [minValue, List.foldl_cons, hx] using h1⟩
    · exact ⟨p, List.mem_cons_of_mem x hp, by simpa [minValue, List.foldl_cons, hx] using h1⟩

theorem foldl_maxStep_mem (l : List (String × Int)) :
    ∀ acc : Int, l.foldl maxStep acc = acc ∨ ∃ p ∈ l, l.foldl maxStep acc = p.2 := by
  induction l with
  | nil => intro acc; left; rfl
  | cons x xs ih =>
    intro acc
    have hx : maxStep acc x = acc ∨ maxStep acc x = x.2 := by
      unfold maxStep; split
      · right; rfl
      · left; rfl
    rcases ih (maxStep acc x) with h | ⟨p, hp, h⟩
    · rcases hx with hx | hx
      · left; simpa [List.foldl_cons, hx] using h
      · right; exact ⟨x, List.mem_cons_self x xs, by simpa [List.foldl_cons, hx] using h⟩
    · right; exact ⟨p, List.mem_cons_of_mem x hp, by simpa [List.foldl_cons] using h⟩

theorem maxValue_mem_or (t : List (String × Int)) :
    (∃ p ∈ t, maxValue t = p.2) ∨ maxValue t = 0 := by
  rcases foldl_maxStep_mem t 0 with h | h
  · right; exact h
  · left; exact h

theorem foldl_maxStep_bounds (l : List (String × Int)) :
    ∀ acc : Int, acc ≤ l.foldl maxStep acc ∧ ∀ p ∈ l, p.2 ≤ l.foldl maxStep acc := by
  induction l with
  | nil => intro acc; exact ⟨le_refl acc, by intro p hp; cases hp⟩
  | cons x xs ih =>
    intro acc
    have h1 : acc ≤ maxStep acc x := by unfold maxStep; split <;> omega
    have h2 : x.2 ≤ maxStep acc x := by unfold maxStep; split <;> omega
    obtain ⟨ha, hb⟩ := ih (maxStep acc x)
    refine ⟨le_trans h1 ha, ?_⟩
    intro p hp
    rcases List.mem_cons.mp hp with rfl | hp
    · exact le_trans h2 (by simpa [List.foldl_cons] using ha)
    · simpa [List.foldl_cons] using hb p hp

theorem le_maxValue (t : List (String × Int)) : ∀ p ∈ t, p.2 ≤ maxValue t :=
  (foldl_maxStep_bounds t 0).2

theorem foldl_minStep_bounds (l : List (String × Int)) :
    ∀ acc : Int, 0 ≤ acc → (∀ p ∈ l, 0 ≤ p.2) →
      0 ≤ l.foldl minStep acc ∧ l.foldl minStep acc ≤ acc ∧
        ∀ p ∈ l, l.foldl minStep acc ≤ p.2 := by
  induction l with
  | nil =>
    intro acc hacc _
    exact ⟨hacc, le_refl acc, by intro p hp; cases hp⟩
  | cons x xs ih =>
    intro acc hacc hnn
    have hx : 0 ≤ x.2 := hnn x (List.mem_cons_self x xs)
    have h0 : 0 ≤ minStep acc x := by unfold minStep; split <;> omega
    have h1 : minStep acc x ≤ acc := by unfold minStep; split <;> omega
    have h2 : minStep acc x ≤ x.2 := by unfold minStep; split <;> omega
    obtain ⟨ha, hb, hc⟩ := ih (minStep acc x) h0
      (fun p hp => hnn p (List.mem_cons_of_mem x hp))
    refine ⟨by simpa [List.foldl_cons] using ha,
      le_trans (by simpa [List.foldl_cons] using hb) h1, ?_⟩
    intro p hp
    rcases List.mem_cons.mp hp with rfl | hp
    · exact le_trans (by simpa [List.foldl_cons] using hb) h2
    · simpa [List.foldl_cons] using hc p hp

theorem minValue_le (t : List (String × Int)) (hnn : ∀ p ∈ t, 0 ≤ p.2) :
    ∀ p ∈ t, minValue t ≤ p.2 := by
  match t with
  | [] => intro p hp; cases hp
  | x :: xs =>
    have hx : 0 ≤ x.2 := hnn x (List.mem_cons_self x xs)
    have hstep : minStep (-1) x = x.2 := by unfold minStep; simp
    obtain ⟨_, hb, hc⟩ := foldl_minStep_bounds xs x.2 hx
      (fun p hp => hnn p (List.mem_cons_of_mem x hp))
    intro p hp
    rcases List.mem_cons.mp hp with rfl | hp
    · simpa [minValue, List.foldl_cons, hstep] using hb
    · simpa [minValue, List.foldl_cons, hstep] using hc p hp

theorem minValue_nonneg (t : List (String × Int)) (hne : t ≠ [])
    (hnn : ∀ p ∈ t, 0 ≤ p.2) : 0 ≤ minValue t := by
  obtain ⟨p, hp, hv⟩ := minValue_mem t hne
  exact hv ▸ hnn p hp

theorem decFirst_of_not_mem (t : List (String × Int)) (m : Int)
    (h : ∀ p ∈ t, p.2 ≠ m) : decFirst t m = t := by
  induction t with
  | nil => rfl
  | cons x xs ih =>
    have hx : x.2 ≠ m := h x (List.mem_cons_self x xs)
    simp only [decFirst, if_neg hx]
    rw [ih (fun p hp => h p (List.mem_cons_of_mem x hp))]

theorem sumVals_decFirst (t : List (String × Int)) (m : Int)
    (h : ∃ p ∈ t, p.2 = m) : sumVals (decFirst t m) = sumVals t - 1 := by
  induction t with
  | nil => obtain ⟨p, hp, _⟩ := h; cases hp
  | cons x xs ih =>
    by_cases hx : x.2 = m
    · simp only [decFirst, if_pos hx, sumVals, List.map_cons, List.sum_cons]
      ring
    · obtain ⟨p, hp, hpm⟩ := h
      rcases List.mem_cons.mp hp with rfl | hp
      · exact absurd hpm hx
      · have := ih ⟨p, hp, hpm⟩
        simp only [decFirst, if_neg hx, sumVals, List.map_cons, List.sum_cons] at *
        omega

theorem sumSq_decFirst (t : List (String × Int)) (m : Int)
    (h : ∃ p ∈ t, p.2 = m) : sumSq (decFirst t m) = sumSq t - 2 * m + 1 := by
  induction t with
  | nil => obtain ⟨p, hp, _⟩ := h; cases hp
  | cons x xs ih =>
    by_cases hx : x.2 = m
    · simp only [decFirst, if_pos hx, sumSq, List.map_cons, List.sum_cons]
      rw [hx]
      ring
    · obtain ⟨p, hp, hpm⟩ := h
      rcases List.mem_cons.mp hp with rfl | hp
      · exact absurd hpm hx
      · have := ih ⟨p, hp, hpm⟩
        simp only [decFirst, if_neg hx, sumSq, List.map_cons, List.sum_cons] at *
        omega

theorem sumVals_incFirst (t : List (String × Int)) (m : Int)
    (h : ∃ p ∈ t, p.2 = m) : sumVals (incFirst t m) = sumVals t + 1 := by
  induction t with
  | nil => obtain ⟨p, hp, _⟩ := h; cases hp
  | cons x xs ih =>
    by_cases hx : x.2 = m
    · simp only [incFirst, if_pos hx, sumVals, List.map_cons, List.sum_cons]
      ring
    · obtain ⟨p, hp, hpm⟩ := h
      rcases List.mem_cons.mp hp with rfl | hp
      · exact absurd hpm hx
      · have := ih ⟨p, hp, hpm⟩
        simp only [incFirst, if_neg hx, sumVals, List.map_cons, List.sum_cons] at *
        omega

theorem sumSq_incFirst (t : List (String × Int)) (m : Int)
    (h : ∃ p ∈ t, p.2 = m) : sumSq (incFirst t m) = sumSq t + 2 * m + 1 := by
  induction t with
  | nil => obtain ⟨p, hp, _⟩ := h; cases hp
  | cons x xs ih =>
    by_cases hx : x.2 = m
    · simp only [incFirst, if_pos hx, sumSq, List.map_cons, List.sum_cons]
      rw [hx]
      ring
    · obtain ⟨p, hp, hpm⟩ := h
      rcases List.mem_cons.mp hp with rfl | hp
      · exact absurd hpm hx
      · have := ih ⟨p, hp, hpm⟩
        simp only [incFirst, if_neg hx, sumSq, List.map_cons, List.sum_cons] at *
        omega

theorem decFirst_mem_of_ne (t : List (String × Int)) (m v : Int)
    (h : ∃ p ∈ t, p.2 = v) (hne : v ≠ m) : ∃ p ∈ decFirst t m, p.2 = v := by
  induction t with
  | nil => obtain ⟨p, hp, _⟩ := h; cases hp
  | cons x xs ih =>
    obtain ⟨p, hp, hpv⟩ := h
    by_cases hx : x.2 = m
    · rcases List.mem_cons.mp hp with rfl | hp
      · exact absurd (hpv ▸ hx) (hpv ▸ hne)
      · exact ⟨p, by simp only [decFirst, if_pos hx]; exact List.mem_cons_of_mem _ hp, hpv⟩
    · rcases List.mem_cons.mp hp with rfl | hp
      · exact ⟨p, by simp only [decFirst, if_neg hx]; exact List.mem_cons_self _ _, hpv⟩
      · obtain ⟨q, hq, hqv⟩ := ih ⟨p, hp, hpv⟩
        exact ⟨q, by simp only [decFirst, if_neg hx]; exact List.mem_cons_of_mem _ hq, hqv⟩

theorem decFirst_nonneg (t : List (String × Int)) (m : Int)
    (hnn : ∀ p ∈ t, 0 ≤ p.2) (hm : 1 ≤ m) : ∀ p ∈ decFirst t m, 0 ≤ p.2 := by
  induction t with
  | nil => intro p hp; cases hp
  | cons x xs ih =>
    intro p hp
    by_cases hx : x.2 = m
    · simp only [decFirst, if_pos hx] at hp
      rcases List.mem_cons.mp hp with rfl | hp
      · simp; omega
      · exact hnn p (List.mem_cons_of_mem x hp)
    · simp only [decFirst, if_neg hx] at hp
      rcases List.mem_cons.mp hp with rfl | hp
      · exact hnn x (List.mem_cons_self x xs)
      · exact ih (fun q hq => hnn q (List.mem_cons_of_mem x hq)) p hp

theorem incFirst_nonneg (t : List (String × Int)) (m : Int)
    (hnn : ∀ p ∈ t, 0 ≤ p.2) (hm : 0 ≤ m + 1) : ∀ p ∈ incFirst t m, 0 ≤ p.2 := by
  induction t with
  | nil => intro p hp; cases hp
  | cons x xs ih =>
    intro p hp
    by_cases hx : x.2 = m
    · simp only [incFirst, if_pos hx] at hp
      rcases List.mem_cons.mp hp with rfl | hp
      · simp; omega
      · exact hnn p (List.mem_cons_of_mem x hp)
    · simp only [incFirst, if_neg hx] at hp
      rcases List.mem_cons.mp hp with rfl | hp
      · exact hnn x (List.mem_cons_self x xs)
      · exact ih (fun q hq => hnn q (List.mem_cons_of_mem x hq)) p hp

theorem decFirst_length (t : List (String × Int)) (m : Int) :
    (decFirst t m).length = t.length := by
  induction t with
  | nil => rfl
  | cons x xs ih =>
    by_cases hx : x.2 = m
    · simp [decFirst, if_pos hx]
    · simp [decFirst, if_neg hx, ih]

theorem incFirst_length (t : List (String × Int)) (m : Int) :
    (incFirst t m).length = t.length := by
  induction t with
  | nil => rfl
  | cons x xs ih =>
    by_cases hx : x.2 = m
    · simp [incFirst, if_pos hx]
    · simp [incFirst, if_neg hx, ih]

theorem sumSq_nonneg (t : List (String × Int)) : 0 ≤ sumSq t := by
  apply List.sum_nonneg
  intro x hx
  obtain ⟨p, _, rfl⟩ := List.mem_map.mp hx
  exact mul_self_nonneg p.2

theorem guard_ne_nil (t : List (String × Int))
    (h : maxValue t - minValue t > 1) : t ≠ [] := by
  intro hnil
  subst hnil
  simp [maxValue, minValue] at h

theorem rhStep_sumSq_lt (t : List (String × Int))
    (h : maxValue t - minValue t > 1) : sumSq (rhStep t) < sumSq t := by
  have hne : t ≠ [] := guard_ne_nil t h
  obtain ⟨pm, hpm, hpmv⟩ := minValue_mem t hne
  have hmM : minValue t ≠ maxValue t := by omega
  by_cases hM : ∃ p ∈ t, p.2 = maxValue t
  · have h1 : sumSq (decFirst t (maxValue t)) = sumSq t - 2 * maxValue t + 1 :=
      sumSq_decFirst t (maxValue t) hM
    have h2 : ∃ p ∈ decFirst t (maxValue t), p.2 = minValue t :=
      decFirst_mem_of_ne t (maxValue t) (minValue t) ⟨pm, hpm, hpmv.symm⟩ hmM
    have h3 : sumSq (rhStep t) =
        sumSq (decFirst t (maxValue t)) + 2 * minValue t + 1 :=
      sumSq_incFirst _ _ h2
    rw [h3, h1]
    omega
  · have hM0 : maxValue t = 0 := by
      rcases maxValue_mem_or t with ⟨p, hp, hv⟩ | h0
      · exact absurd ⟨p, hp, hv.symm⟩ hM
      · exact h0
    push_neg at hM
    have h5 : decFirst t (maxValue t) = t := decFirst_of_not_mem t (maxValue t) hM
    have h6 : sumSq (rhStep t) = sumSq t + 2 * minValue t + 1 := by
      unfold rhStep
      rw [h5]
      exact sumSq_incFirst t (minValue t) ⟨pm, hpm, hpmv.symm⟩
    rw [h6]
    omega

/-- Embeds the Robin Hood loop of `ReduceIps` (vip_manager.go): repeat the
decrement/increment step while `max - min > 1`. Termination: the sum of
squared values strictly decreases each iteration. -/
def rhLoop (t : List (String × Int)) : List (String × Int) :=
  if h : maxValue t - minValue t > 1 then rhLoop (rhStep t) else t
termination_by (sumSq t).toNat
decreasing_by
  have h1 := rhStep_sumSq_lt t h
  have h2 := sumSq_nonneg (rhStep t)
  omega

/-- The same loop as an explicit step-indexed iteration, used to state
termination: `rhIter n` runs at most `n` guarded iterations. -/
def rhIter : Nat → List (String × Int) → List (String × Int)
  | 0, t => t
  | n + 1, t => if maxValue t - minValue t > 1 then rhIter n (rhStep t) else t

theorem maxValue_attained (t : List (String × Int)) (hne : t ≠ [])
    (hnn : ∀ p ∈ t, 0 ≤ p.2) : ∃ p ∈ t, p.2 = maxValue t := by
  rcases maxValue_mem_or t with ⟨p, hp, hv⟩ | h0
  · exact ⟨p, hp, hv.symm⟩
  · match t with
    | [] => exact absurd rfl hne
    | x :: xs =>
      have h1 : x.2 ≤ maxValue (x :: xs) := le_maxValue _ x (List.mem_cons_self x xs)
      have h2 : 0 ≤ x.2 := hnn x (List.mem_cons_self x xs)
      exact ⟨x, List.mem_cons_self x xs, by omega⟩

theorem rhStep_facts (t : List (String × Int)) (hne : t ≠ [])
    (hnn : ∀ p ∈ t, 0 ≤ p.2) (hg : maxValue t - minValue t > 1) :
    rhStep t ≠ [] ∧ (∀ p ∈ rhStep t, 0 ≤ p.2) ∧ sumVals (rhStep t) = sumVals t := by
  have hmin0 : 0 ≤ minValue t := minValue_nonneg t hne hnn
  have hM : ∃ p ∈ t, p.2 = maxValue t := maxValue_attained t hne hnn
  have hm : ∃ p ∈ t, p.2 = minValue t := by
    obtain ⟨p, hp, hv⟩ := minValue_mem t hne
    exact ⟨p, hp, hv.symm⟩
  have hmM : minValue t ≠ maxValue t := by omega
  have hmdec : ∃ p ∈ decFirst t (maxValue t), p.2 = minValue t :=
    decFirst_mem_of_ne t (maxValue t) (minValue t) hm hmM
  refine ⟨?_, ?_, ?_⟩
  · intro hcon
    apply hne
    have hlen : (rhStep t).length = t.length := by
      unfold rhStep
      rw [incFirst_length, decFirst_length]
    rw [hcon] at hlen
    exact List.length_eq_zero.mp hlen.symm
  · intro p hp
    have hd : ∀ q ∈ decFirst t (maxValue t), 0 ≤ q.2 :=
      decFirst_nonneg t (maxValue t) hnn (by omega)
    exact incFirst_nonneg _ (minValue t) hd (by omega) p hp
  · have h1 : sumVals (decFirst t (maxValue t)) = sumVals t - 1 :=
      sumVals_decFirst t (maxValue t) hM
    have h2 : sumVals (rhStep t) = sumVals (decFirst t (maxValue t)) + 1 :=
      sumVals_incFirst _ (minValue t) hmdec
    omega

theorem rhLoop_spec_aux :
    ∀ n t, (sumSq t).toNat ≤ n → t ≠ [] → (∀ p ∈ t, 0 ≤ p.2) →
      maxValue (rhLoop t) - minValue (rhLoop t) ≤ 1 ∧
        sumVals (rhLoop t) = sumVals t ∧ rhLoop t ≠ [] ∧
        ∀ p ∈ rhLoop t, 0 ≤ p.2 := by
  intro n
  induction n with
  | zero =>
    intro t hst hne hnn
    have hg : ¬ maxValue t - minValue t > 1 := by
      intro hg
      have h1 := rhStep_sumSq_lt t hg
      have h2 := sumSq_nonneg (rhStep t)
      have h3 := sumSq_nonneg t
      omega
    rw [rhLoop, dif_neg hg]
    exact ⟨by omega, rfl, hne, hnn⟩
  | succ n ih =>
    intro t hst hne hnn
    by_cases hg : maxValue t - minValue t > 1
    · obtain ⟨hne2, hnn2, hsum2⟩ := rhStep_facts t hne hnn hg
      have hmeas : (sumSq (rhStep t)).toNat ≤ n := by
        have h1 := rhStep_sumSq_lt t hg
        have h2 := sumSq_nonneg (rhStep t)
        omega
      obtain ⟨ha, hb, hc, hd⟩ := ih (rhStep t) hmeas hne2 hnn2
      rw [rhLoop, dif_pos hg]
      exact ⟨ha, by rw [hb, hsum2], hc, hd⟩
    · rw [rhLoop, dif_neg hg]
      exact ⟨by omega, rfl, hne, hnn⟩

theorem rhLoop_balanced (t : List (String × Int)) (hne : t ≠ [])
    (hnn : ∀ p ∈ t, 0 ≤ p.2) :
    maxValue (rhLoop t) - minValue (rhLoop t) ≤ 1 ∧ sumVals (rhLoop t) = sumVals t :=
  ⟨(rhLoop_spec_aux (sumSq t).toNat t (le_refl _) hne hnn).1,
   (rhLoop_spec_aux (sumSq t).toNat t (le_refl _) hne hnn).2.1⟩

theorem rhLoop_eq_self (t : List (String × Int))
    (h : maxValue t - minValue t ≤ 1) : rhLoop t = t := by
  rw [rhLoop, dif_neg (by omega)]

theorem rhIter_reaches_aux :
    ∀ n t, (sumSq t).toNat ≤ n →
      ∃ k, rhIter k t = rhLoop t ∧
        maxValue (rhIter k t) - minValue (rhIter k t) ≤ 1 := by
  intro n
  induction n with
  | zero =>
    intro t hst
    have hg : ¬ maxValue t - minValue t > 1 := by
      intro hg
      have h1 := rhStep_sumSq_lt t hg
      have h2 := sumSq_nonneg (rhStep t)
      have h3 := sumSq_nonneg t
      omega
    refine ⟨0, ?_, ?_⟩
    · rw [rhIter, rhLoop, dif_neg hg]
    · simpa [rhIter] using by omega
  | succ n ih =>
    intro t hst
    by_cases hg : maxValue t - minValue t > 1
    · have hmeas : (sumSq (rhStep t)).toNat ≤ n := by
        have h1 := rhStep_sumSq_lt t hg
        have h2 := sumSq_nonneg (rhStep t)
        omega
      obtain ⟨k, hk1, hk2⟩ := ih (rhStep t) hmeas
      have hstep : rhLoop t = rhLoop (rhStep t) := by
        rw [rhLoop, dif_pos hg]
      refine ⟨k + 1, ?_, ?_⟩
      · rw [rhIter, if_pos hg, hk1, hstep]
      · rw [rhIter, if_pos hg]
        exact hk2
    · refine ⟨0, ?_, ?_⟩
      · rw [rhIter, rhLoop, dif_neg hg]
      · simpa [rhIter] using by omega

/-- Embeds the target-map initialization of `ReduceIps`:
`target[name] = len(*instance.AliasIps)`. -/
def initTargets (instances : List (String × GceInstance)) : List (String × Int) :=
  instances.map (fun p => (p.1, (p.2.aliasIps.length : Int)))

/-- The target map after the Robin Hood smoothing loop of `ReduceIps`. -/
def reduceTargets (instances : List (String × GceInstance)) : List (String × Int) :=
  rhLoop (initTargets instances)

/-- Embeds `GetSpareIps` (vip_manager.go): pool addresses (the `used` map
dedups the configured VIPs) assigned to no instance. -/
def GetSpareIps (vips : List String) (instances : List (String × GceInstance)) :
    List String :=
  vips.dedup.filter
    (fun ip => !(instances.any (fun p => p.2.aliasIps.contains ip)))

/-- Embeds the Go map read `operations[name].Ips`: zero-value `Operation`
(empty `Ips`) when the key is missing. -/
def opIps (ops : List (String × Operation)) (name : String) : List String :=
  match ops.lookup name with
  | some op => op.ips
  | none => []

/-- The per-instance quantity scanned by `minAliasIps`:
`len(*instance.AliasIps) + len(operations[name].Ips)`. -/
def instanceCost (p : String × GceInstance) (ops : List (String × Operation)) : Int :=
  ((p.2.aliasIps.length + (opIps ops p.1).length : Nat) : Int)

/-- Loop body of `minAliasIps` (vip_manager.go):
`if min < 0 || ips < min { min = ips }`. -/
def costStep (ops : List (String × Operation)) (m : Int)
    (p : String × GceInstance) : Int :=
  if m < 0 ∨ instanceCost p ops < m then instanceCost p ops else m

/-- Embeds `minAliasIps` (vip_manager.go): minimum of `instanceCost` over all
instances, `-1` start as in the Go loop. -/
def minAliasIps (instances : List (String × GceInstance))
    (ops : List (String × Operation)) : Int :=
  instances.foldl (costStep ops) (-1)

/-- Embeds the operation-map initialization of `AllocateIps`: one empty Add
operation per instance. -/
def initOps (instances : List (String × GceInstance)) : List (String × Operation) :=
  instances.map (fun p => (p.1, ⟨OpType.add, p.2, []⟩))

/-- Embeds the Go map write `operations[name] = operation` after appending
`ip` to its `Ips` (the copy-then-store idiom): updates the entry with the
given key, no change when the key is missing. -/
def updateOps : List (String × Operation) → String → String → List (String × Operation)
  | [], _, _ => []
  | (n, op) :: rest, name, ip =>
    if n = name then (n, { op with ips := op.ips ++ [ip] }) :: rest
    else (n, op) :: updateOps rest name ip

/-- Embeds one iteration of the spare-assignment loop of `AllocateIps`: find
the first instance whose cost equals `minAliasIps` (the `break`), append the
spare address to its operation. -/
def assignIp (instances : List (String × GceInstance))
    (ops : List (String × Operation)) (ip : String) : List (String × Operation) :=
  match instances.find?
      (fun p => instanceCost p ops == minAliasIps instances ops) with
  | some p => updateOps ops p.1 ip
  | none => ops

/-- The operation map staged by `AllocateIps` after assigning every spare
address. -/
def allocateOps (instances : List (String × GceInstance)) (spare : List String) :
    List (String × Operation) :=
  spare.foldl (fun ops ip => assignIp instances ops ip) (initOps instances)

/-- Embeds the operation generation of `ReduceIps`: a Remove operation
carrying the first `reduction` currently assigned addresses, for each
instance whose count exceeds its target (`target[name]` reads `0` for a
missing key, as the Go zero value). -/
def reduceOps (instances : List (String × GceInstance))
    (target : List (String × Int)) : List (String × Operation) :=
  instances.filterMap (fun p =>
    let reduction : Int := (p.2.aliasIps.length : Int) - ((target.lookup p.1).getD 0)
    if reduction > 0 then
      some (p.1, ⟨OpType.remove, p.2, p.2.aliasIps.take reduction.toNat⟩)
    else none)

/-- Result of one `Execute` call (operation.go): the returned change count,
whether `UpdateAliasIPs` was called, whether `WaitForUpdate` was called, and
the instance's alias list after the call (`none` when the re-fetch failed). -/
structure ExecResult where
  changes : Nat
  wrote : Bool
  waited : Bool
  finalIps : Option (List String)
deriving DecidableEq

/-- Embeds the `newState` computation of `Execute` (operation.go): for Add,
append each operation address not already present; for Remove, keep each
current address not listed for removal. -/
def desiredState : OpType → List String → List String → List String
  | OpType.add, current, ips =>
    ips.foldl (fun ns ip => if ns.contains ip then ns else ns ++ [ip]) current
  | OpType.remove, current, ips =>
    current.filter (fun ip => !(ips.contains ip))

/-- Embeds `Execute` (operation.go). `fetch` is the result of the fresh
`GetInstance` call, `writeOk` whether `UpdateAliasIPs` succeeds. -/
def Execute (fetch : Option GceInstance) (writeOk : Bool) (op : Operation) :
    ExecResult :=
  match fetch with
  | none => ⟨0, false, false, none⟩
  | some inst =>
    let newState := desiredState op.type inst.aliasIps op.ips
    if inst.aliasIps.length = newState.length then ⟨0, false, false, some inst.aliasIps⟩
    else if writeOk then ⟨1, true, true, some newState⟩
    else ⟨0, true, false, some inst.aliasIps⟩

/-- Embeds `ExecuteParallel` (operation.go): submit every operation with a
non-empty address list, collect the per-operation change counts. `world`
gives each worker's fresh `GetInstance` result, `writeOk` its write outcome. -/
def ExecuteParallel (world : String → Option GceInstance)
    (writeOk : String → Bool) (operations : List (String × Operation)) : Nat :=
  ((operations.filter (fun p => decide (0 < p.2.ips.length))).map
    (fun p => (Execute (world p.2.inst.name) (writeOk p.2.inst.name) p.2).changes)).sum

/-- Embeds `AllocateIps` (vip_manager.go). `fetch` is the result of
`GetInstancesFromMIG` (`none` on error), `vips` the configured pool. -/
def AllocateIps (world : String → Option GceInstance) (writeOk : String → Bool)
    (fetch : Option (List (String × GceInstance))) (vips : List String) : Nat :=
  match fetch with
  | none => 0
  | some instances =>
    let spare := GetSpareIps vips instances
    if spare.length = 0 ∨ instances.length = 0 then 0
    else ExecuteParallel world writeOk (allocateOps instances spare)

/-- Embeds `ReduceIps` (vip_manager.go). -/
def ReduceIps (world : String → Option GceInstance) (writeOk : String → Bool)
    (fetch : Option (List (String × GceInstance))) : Nat :=
  match fetch with
  | none => 0
  | some instances =>
    if instances.length = 0 then 0
    else ExecuteParallel world writeOk
      (reduceOps instances (reduceTargets instances))

theorem initTargets_ne_nil (instances : List (String × GceInstance))
    (h : instances ≠ []) : initTargets instances ≠ [] := by
  intro hcon
  exact h (List.map_eq_nil.mp hcon)

theorem initTargets_nonneg (instances : List (String × GceInstance)) :
    ∀ p ∈ initTargets instances, 0 ≤ p.2 := by
  intro p hp
  obtain ⟨q, _, rfl⟩ := List.mem_map.mp hp
  exact Int.ofNat_nonneg _

theorem sumVals_initTargets (instances : List (String × GceInstance)) :
    sumVals (initTargets instances) =
      (instances.map (fun p => ((p.2.aliasIps.length : Int)))).sum := by
  unfold sumVals initTargets
  rw [List.map_map]
  rfl

/-- C1: for every non-empty instance map, the target map computed by the
Robin Hood pass of `ReduceIps` has spread at most 1, and its sum equals the
sum of the instances' current assigned-address counts. -/
theorem reduce_targets_balanced_and_sum_preserved
    (instances : List (String × GceInstance)) (h : instances ≠ []) :
    maxValue (reduceTargets instances) - minValue (reduceTargets instances) ≤ 1 ∧
    sumVals (reduceTargets instances) =
      (instances.map (fun p => ((p.2.aliasIps.length : Int)))).sum := by
  obtain ⟨h1, h2⟩ := rhLoop_balanced (initTargets instances)
    (initTargets_ne_nil instances h) (initTargets_nonneg instances)
  exact ⟨h1, by rw [reduceTargets, h2, sumVals_initTargets]⟩

/-- Witness for C1 at a concrete two-instance snapshot with counts 3 and 0. -/
theorem reduce_targets_balanced_and_sum_preserved_witness :
    ([(("a" : String), (⟨"a", "nic0", "fp", "net", ["x", "y", "z"]⟩ : GceInstance)),
      ("b", ⟨"b", "nic0", "fp", "net", []⟩)] ≠ []) ∧
    (maxValue (reduceTargets
        [("a", ⟨"a", "nic0", "fp", "net", ["x", "y", "z"]⟩),
         ("b", ⟨"b", "nic0", "fp", "net", []⟩)]) -
      minValue (reduceTargets
        [("a", ⟨"a", "nic0", "fp", "net", ["x", "y", "z"]⟩),
         ("b", ⟨"b", "nic0", "fp", "net", []⟩)]) ≤ 1 ∧
     sumVals (reduceTargets
        [("a", ⟨"a", "nic0", "fp", "net", ["x", "y", "z"]⟩),
         ("b", ⟨"b", "nic0", "fp", "net", []⟩)]) =
       (([("a", (⟨"a", "nic0", "fp", "net", ["x", "y", "z"]⟩ : GceInstance)),
          ("b", ⟨"b", "nic0", "fp", "net", []⟩)].map
            (fun p => ((p.2.aliasIps.length : Int)))).sum)) :=
  ⟨by decide, reduce_targets_balanced_and_sum_preserved _ (by decide)⟩

/-- C4: the Robin Hood smoothing loop terminates on every finite target map:
some finite number of steps reaches a map with spread at most 1, which is the
loop's result. -/
theorem robin_hood_loop_terminates (t : List (String × Int)) :
    ∃ n, rhIter n t = rhLoop t ∧
      maxValue (rhIter n t) - minValue (rhIter n t) ≤ 1 :=
  rhIter_reaches_aux (sumSq t).toNat t (le_refl _)

/-- C9: with an empty instance map, `ReduceIps` returns 0 and generates no
operations, and the sentinel values `minValue = -1`, `maxValue = 0` of the
empty map never reach the Robin Hood loop. -/
theorem reduce_ips_empty_instances (world : String → Option GceInstance)
    (writeOk : String → Bool) :
    ReduceIps world writeOk (some []) = 0 ∧
    (∀ t, reduceOps [] t = []) ∧
    minValue [] = -1 ∧ maxValue [] = 0 :=
  ⟨rfl, fun _ => rfl, rfl, rfl⟩

/-- C8: when the write call fails, `Execute` counts the operation as zero
changes and never calls `WaitForUpdate`. -/
theorem execute_write_failure_no_wait (fetch : Option GceInstance)
    (op : Operation) :
    (Execute fetch false op).changes = 0 ∧ (Execute fetch false op).waited = false := by
  cases fetch with
  | none => exact ⟨rfl, rfl⟩
  | some inst =>
    simp only [Execute]
    split
    · exact ⟨rfl, rfl⟩
    · exact ⟨rfl, rfl⟩

theorem execute_changes_le_one (fetch : Option GceInstance) (wk : Bool)
    (op : Operation) : (Execute fetch wk op).changes ≤ 1 := by
  cases fetch with
  | none => exact Nat.zero_le 1
  | some inst =>
    simp only [Execute]
    split
    · exact Nat.zero_le 1
    · split
      · exact le_refl 1
      · exact Nat.zero_le 1

theorem sum_changes_le_length (world : String → Option GceInstance)
    (writeOk : String → Bool) :
    ∀ l : List (String × Operation),
      ((l.map (fun p =>
        (Execute (world p.2.inst.name) (writeOk p.2.inst.name) p.2).changes)).sum)
        ≤ l.length := by
  intro l
  induction l with
  | nil => exact Nat.le_refl 0
  | cons x xs ih =>
    simp only [List.map_cons, List.sum_cons, List.length_cons]
    have hx := execute_changes_le_one (world x.2.inst.name) (writeOk x.2.inst.name) x.2
    omega

theorem executeParallel_le_filter (world : String → Option GceInstance)
    (writeOk : String → Bool) (ops : List (String × Operation)) :
    ExecuteParallel world writeOk ops ≤
      (ops.filter (fun p => decide (0 < p.2.ips.length))).length := by
  unfold ExecuteParallel
  exact sum_changes_le_length world writeOk _

/-- C10: `Execute` always returns 0 or 1 changes, and the batch change count
of `ExecuteParallel` is at most the number of submitted operations with
non-empty address lists. -/
theorem execute_parallel_change_bounds (fetch : Option GceInstance) (wk : Bool)
    (op : Operation) (world : String → Option GceInstance)
    (writeOk : String → Bool) (ops : List (String × Operation)) :
    ((Execute fetch wk op).changes = 0 ∨ (Execute fetch wk op).changes = 1) ∧
    ExecuteParallel world writeOk ops ≤
      (ops.filter (fun p => decide (0 < p.2.ips.length))).length := by
  constructor
  · have h := execute_changes_le_one fetch wk op
    omega
  · exact executeParallel_le_filter world writeOk ops

theorem desired_add_split :
    ∀ (ips current : List String),
      ∃ extra, desiredState OpType.add current ips = current ++ extra ∧
        ∀ x ∈ extra, x ∉ current := by
  intro ips
  induction ips with
  | nil =>
    intro current
    exact ⟨[], by simp [desiredState], by intro x hx; cases hx⟩
  | cons ip ips ih =>
    intro current
    by_cases hc : current.contains ip
    · have hm : ip ∈ current := by simpa using hc
      have hstep : desiredState OpType.add current (ip :: ips) =
          desiredState OpType.add current ips := by
        simp [desiredState, List.foldl_cons, hm]
      rw [hstep]
      exact ih current
    · have hm : ip ∉ current := by simpa using hc
      have hstep : desiredState OpType.add current (ip :: ips) =
          desiredState OpType.add (current ++ [ip]) ips := by
        simp [desiredState, List.foldl_cons, hm]
      obtain ⟨extra, heq, hex⟩ := ih (current ++ [ip])
      refine ⟨ip :: extra, ?_, ?_⟩
      · rw [hstep, heq, List.append_assoc]
        rfl
      · intro x hx
        rcases List.mem_cons.mp hx with rfl | hx
        · intro hmem
          exact hc (List.elem_iff.mpr hmem)
        · intro hmem
          exact hex x hx (List.mem_append_left _ hmem)

/-- C7: when the desired final address set computed by `Execute` equals (as a
set) the freshly re-fetched current set, `Execute` issues no write, performs
no wait, leaves the instance's address list unchanged, and returns 0. -/
theorem execute_noop_short_circuit (inst : GceInstance) (writeOk : Bool)
    (op : Operation)
    (h1 : ∀ ip ∈ desiredState op.type inst.aliasIps op.ips, ip ∈ inst.aliasIps)
    (h2 : ∀ ip ∈ inst.aliasIps, ip ∈ desiredState op.type inst.aliasIps op.ips) :
    Execute (some inst) writeOk op = ⟨0, false, false, some inst.aliasIps⟩ := by
  have hlen : inst.aliasIps.length =
      (desiredState op.type inst.aliasIps op.ips).length := by
    cases hty : op.type with
    | add =>
      obtain ⟨extra, heq, hex⟩ := desired_add_split op.ips inst.aliasIps
      have hextra : extra = [] := by
        cases hx : extra with
        | nil => rfl
        | cons e es =>
          have he1 : e ∈ desiredState OpType.add inst.aliasIps op.ips := by
            rw [heq, hx]
            exact List.mem_append_right _ (List.mem_cons_self e es)
          have he2 : e ∈ inst.aliasIps := by
            rw [hty] at h1
            exact h1 e he1
          exact absurd he2 (hex e (hx ▸ List.mem_cons_self e es))
      rw [heq, hextra, List.append_nil]
    | remove =>
      have hfe : inst.aliasIps.filter
          (fun ip => !(op.ips.contains ip)) = inst.aliasIps := by
        apply List.filter_eq_self.mpr
        intro a ha
        by_contra hcon
        have ha2 : a ∈ desiredState op.type inst.aliasIps op.ips := h2 a ha
        rw [hty] at ha2
        simp only [desiredState] at ha2
        have := (List.mem_filter.mp ha2).2
        exact hcon this
      simp only [desiredState]
      rw [hfe]
  simp only [Execute]
  rw [if_pos hlen]

/-- Witness for C7: an Add operation whose addresses are already assigned. -/
theorem execute_noop_short_circuit_witness :
    ((∀ ip ∈ desiredState
        (Operation.mk OpType.add (⟨"n", "nic0", "fp", "net", []⟩ : GceInstance)
          ["p"]).type
        (GceInstance.mk "n" "nic0" "fp" "net" ["p", "q"]).aliasIps
        (Operation.mk OpType.add (⟨"n", "nic0", "fp", "net", []⟩ : GceInstance)
          ["p"]).ips,
        ip ∈ (GceInstance.mk "n" "nic0" "fp" "net" ["p", "q"]).aliasIps) ∧
     (∀ ip ∈ (GceInstance.mk "n" "nic0" "fp" "net" ["p", "q"]).aliasIps,
        ip ∈ desiredState
          (Operation.mk OpType.add (⟨"n", "nic0", "fp", "net", []⟩ : GceInstance)
            ["p"]).type
          (GceInstance.mk "n" "nic0" "fp" "net" ["p", "q"]).aliasIps
          (Operation.mk OpType.add (⟨"n", "nic0", "fp", "net", []⟩ : GceInstance)
            ["p"]).ips)) ∧
    Execute (some (GceInstance.mk "n" "nic0" "fp" "net" ["p", "q"])) true
        (Operation.mk OpType.add (⟨"n", "nic0", "fp", "net", []⟩ : GceInstance)
          ["p"]) =
      ⟨0, false, false, some ["p", "q"]⟩ :=
  ⟨⟨by decide, by decide⟩,
    execute_noop_short_circuit _ true _ (by decide) (by decide)⟩

theorem lookup_initTargets (instances : List (String × GceInstance))
    (hkeys : (instances.map Prod.fst).Nodup) :
    ∀ p ∈ instances,
      (initTargets instances).lookup p.1 = some ((p.2.aliasIps.length : Int)) := by
  induction instances with
  | nil => intro p hp; cases hp
  | cons q rest ih =>
    have hnc : q.1 ∉ rest.map Prod.fst ∧ (rest.map Prod.fst).Nodup :=
      List.nodup_cons.mp (by simpa only [List.map_cons] using hkeys)
    have hkq : q.1 ∉ rest.map Prod.fst := hnc.1
    have hrest : (rest.map Prod.fst).Nodup := hnc.2
    intro p hp
    rcases List.mem_cons.mp hp with rfl | hp
    · simp [initTargets, List.lookup]
    · have hne : p.1 ≠ q.1 := by
        intro he
        exact hkq (he ▸ List.mem_map_of_mem Prod.fst hp)
      have hbeq : (p.1 == q.1) = false := beq_eq_false_iff_ne.mpr hne
      simp only [initTargets, List.map_cons, List.lookup, hbeq]
      exact ih hrest p hp

theorem reduceOps_initTargets_eq_nil (instances : List (String × GceInstance))
    (hkeys : (instances.map Prod.fst).Nodup) :
    reduceOps instances (initTargets instances) = [] := by
  unfold reduceOps
  apply List.filterMap_eq_nil.mpr
  intro p hp
  have hl := lookup_initTargets instances hkeys p hp
  simp [hl]

/-- C6: a shrink pass is idempotent once balanced: if the current counts
already have spread at most 1, `ReduceIps` generates no Remove operations and
returns 0. -/
theorem reduce_balanced_idempotent (world : String → Option GceInstance)
    (writeOk : String → Bool) (instances : List (String × GceInstance))
    (hkeys : (instances.map Prod.fst).Nodup)
    (hbal : maxValue (initTargets instances) -
      minValue (initTargets instances) ≤ 1) :
    reduceOps instances (reduceTargets instances) = [] ∧
    ReduceIps world writeOk (some instances) = 0 := by
  have ht : reduceTargets instances = initTargets instances :=
    rhLoop_eq_self _ hbal
  have hops : reduceOps instances (reduceTargets instances) = [] := by
    rw [ht]
    exact reduceOps_initTargets_eq_nil instances hkeys
  refine ⟨hops, ?_⟩
  by_cases hlen : instances.length = 0
  · simp [ReduceIps, hlen]
  · simp only [ReduceIps, if_neg hlen, hops]
    rfl

/-- Witness for C6: two instances with counts 2 and 1 (already balanced). -/
theorem reduce_balanced_idempotent_witness :
    (([(("a" : String), (⟨"a", "nic0", "fp", "net", ["x", "y"]⟩ : GceInstance)),
       ("b", ⟨"b", "nic0", "fp", "net", ["z"]⟩)].map Prod.fst).Nodup ∧
     maxValue (initTargets
        [("a", ⟨"a", "nic0", "fp", "net", ["x", "y"]⟩),
         ("b", ⟨"b", "nic0", "fp", "net", ["z"]⟩)]) -
       minValue (initTargets
        [("a", ⟨"a", "nic0", "fp", "net", ["x", "y"]⟩),
         ("b", ⟨"b", "nic0", "fp", "net", ["z"]⟩)]) ≤ 1) ∧
    (reduceOps
        [("a", ⟨"a", "nic0", "fp", "net", ["x", "y"]⟩),
         ("b", ⟨"b", "nic0", "fp", "net", ["z"]⟩)]
        (reduceTargets
          [("a", ⟨"a", "nic0", "fp", "net", ["x", "y"]⟩),
           ("b", ⟨"b", "nic0", "fp", "net", ["z"]⟩)]) = [] ∧
     ReduceIps (fun _ => none) (fun _ => true)
        (some [("a", ⟨"a", "nic0", "fp", "net", ["x", "y"]⟩),
               ("b", ⟨"b", "nic0", "fp", "net", ["z"]⟩)]) = 0) :=
  ⟨⟨by decide, by decide⟩,
    reduce_balanced_idempotent _ _ _ (by decide) (by decide)⟩

/-- Total number of occurrences of `ip` across all staged operation lists. -/
def totalCount (ip : String) (ops : List (String × Operation)) : Nat :=
  (ops.map (fun p => p.2.ips.count ip)).sum

theorem instanceCost_nonneg (p : String × GceInstance)
    (ops : List (String × Operation)) : 0 ≤ instanceCost p ops :=
  Int.ofNat_nonneg _

theorem foldl_costStep_bounds (ops : List (String × Operation))
    (l : List (String × GceInstance)) :
    ∀ acc : Int, 0 ≤ acc →
      (l.foldl (costStep ops) acc = acc ∨
        ∃ q ∈ l, l.foldl (costStep ops) acc = instanceCost q ops) ∧
      l.foldl (costStep ops) acc ≤ acc ∧
      ∀ q ∈ l, l.foldl (costStep ops) acc ≤ instanceCost q ops := by
  induction l with
  | nil =>
    intro acc hacc
    exact ⟨Or.inl rfl, le_refl acc, by intro q hq; cases hq⟩
  | cons x xs ih =>
    intro acc hacc
    have hx : 0 ≤ instanceCost x ops := instanceCost_nonneg x ops
    have h0 : 0 ≤ costStep ops acc x := by unfold costStep; split <;> omega
    have h1 : costStep ops acc x ≤ acc := by unfold costStep; split <;> omega
    have h2 : costStep ops acc x ≤ instanceCost x ops := by
      unfold costStep; split <;> omega
    have hc : costStep ops acc x = acc ∨ costStep ops acc x = instanceCost x ops := by
      unfold costStep; split
      · right; rfl
      · left; rfl
    obtain ⟨ha, hb, hd⟩ := ih (costStep ops acc x) h0
    refine ⟨?_, ?_, ?_⟩
    · rcases ha with ha | ⟨q, hq, ha⟩
      · rcases hc with hc | hc
        · left; simpa [List.foldl_cons, hc] using ha
        · right
          exact ⟨x, List.mem_cons_self x xs, by simpa [List.foldl_cons, hc] using ha⟩
      · right; exact ⟨q, List.mem_cons_of_mem x hq, by simpa [List.foldl_cons] using ha⟩
    · exact le_trans (by simpa [List.foldl_cons] using hb) h1
    · intro q hq
      rcases List.mem_cons.mp hq with rfl | hq
      · exact le_trans (by simpa [List.foldl_cons] using hb) h2
      · simpa [List.foldl_cons] using hd q hq

theorem minAliasIps_spec (instances : List (String × GceInstance))
    (ops : List (String × Operation)) (h : instances ≠ []) :
    (∃ q ∈ instances, minAliasIps instances ops = instanceCost q ops) ∧
    ∀ r ∈ instances, minAliasIps instances ops ≤ instanceCost r ops := by
  match instances with
  | [] => exact absurd rfl h
  | x :: xs =>
    have hx : 0 ≤ instanceCost x ops := instanceCost_nonneg x ops
    have hstep : costStep ops (-1) x = instanceCost x ops := by
      unfold costStep; simp
    obtain ⟨ha, hb, hd⟩ := foldl_costStep_bounds ops xs (instanceCost x ops) hx
    constructor
    · rcases ha with ha | ⟨q, hq, ha⟩
      · exact ⟨x, List.mem_cons_self x xs,
          by simpa [minAliasIps, List.foldl_cons, hstep] using ha⟩
      · exact ⟨q, List.mem_cons_of_mem x hq,
          by simpa [minAliasIps, List.foldl_cons, hstep] using ha⟩
    · intro r hr
      rcases List.mem_cons.mp hr with rfl | hr
      · simpa [minAliasIps, List.foldl_cons, hstep] using hb
      · simpa [minAliasIps, List.foldl_cons, hstep] using hd r hr

theorem assignIp_spec (instances : List (String × GceInstance))
    (ops : List (String × Operation)) (ip : String) (h : instances ≠ []) :
    ∃ q ∈ instances,
      instanceCost q ops = minAliasIps instances ops ∧
      (∀ r ∈ instances, minAliasIps instances ops ≤ instanceCost r ops) ∧
      assignIp instances ops ip = updateOps ops q.1 ip := by
  obtain ⟨⟨q0, hq0, hcost⟩, hmin⟩ := minAliasIps_spec instances ops h
  cases hf : instances.find?
      (fun p => instanceCost p ops == minAliasIps instances ops) with
  | none =>
    exfalso
    have := List.find?_eq_none.mp hf q0 hq0
    simp [hcost] at this
  | some q =>
    have hqmem : q ∈ instances := List.mem_of_find?_eq_some hf
    have hqcost : instanceCost q ops = minAliasIps instances ops := by
      have := List.find?_some hf
      simpa using this
    refine ⟨q, hqmem, hqcost, hmin, ?_⟩
    unfold assignIp
    rw [hf]

theorem updateOps_keys (ops : List (String × Operation)) (name ip : String) :
    (updateOps ops name ip).map Prod.fst = ops.map Prod.fst := by
  induction ops with
  | nil => rfl
  | cons x xs ih =>
    obtain ⟨n, op⟩ := x
    by_cases hn : n = name
    · simp [updateOps, if_pos hn]
    · simp [updateOps, if_neg hn, ih]

theorem assignIp_keys (instances : List (String × GceInstance))
    (ops : List (String × Operation)) (ip : String) :
    (assignIp instances ops ip).map Prod.fst = ops.map Prod.fst := by
  unfold assignIp
  cases instances.find?
      (fun p => instanceCost p ops == minAliasIps instances ops) with
  | none => rfl
  | some q => exact updateOps_keys ops q.1 ip

theorem initOps_keys (instances : List (String × GceInstance)) :
    (initOps instances).map Prod.fst = instances.map Prod.fst := by
  unfold initOps
  rw [List.map_map]
  rfl

theorem allocFold_keys (instances : List (String × GceInstance)) :
    ∀ (sp : List String) (acc : List (String × Operation)),
      ((sp.foldl (fun ops ip => assignIp instances ops ip) acc).map Prod.fst) =
        acc.map Prod.fst := by
  intro sp
  induction sp with
  | nil => intro acc; rfl
  | cons x xs ih =>
    intro acc
    rw [List.foldl_cons, ih (assignIp instances acc x), assignIp_keys]

theorem totalCount_updateOps_eq (ops : List (String × Operation))
    (name ip ip2 : String) (h : name ∈ ops.map Prod.fst) :
    totalCount ip2 (updateOps ops name ip) =
      totalCount ip2 ops + (if ip2 = ip then 1 else 0) := by
  induction ops with
  | nil => cases h
  | cons x xs ih =>
    obtain ⟨n, op⟩ := x
    by_cases hn : n = name
    · have hcount : (op.ips ++ [ip]).count ip2 =
          op.ips.count ip2 + (if ip2 = ip then 1 else 0) := by
        rw [List.count_append]
        by_cases hip : ip2 = ip
        · simp [hip]
        · simp [List.count_singleton', hip]
      simp only [updateOps, if_pos hn, totalCount, List.map_cons, List.sum_cons]
      rw [hcount]
      omega
    · have hmem : name ∈ xs.map Prod.fst := by
        rcases List.mem_cons.mp h with he | he
        · exact absurd he.symm hn
        · exact he
      have := ih hmem
      simp only [updateOps, if_neg hn, totalCount, List.map_cons, List.sum_cons] at *
      omega

theorem totalCount_updateOps_le (ops : List (String × Operation))
    (name ip ip2 : String) :
    totalCount ip2 (updateOps ops name ip) ≤
      totalCount ip2 ops + (if ip2 = ip then 1 else 0) := by
  by_cases h : name ∈ ops.map Prod.fst
  · exact le_of_eq (totalCount_updateOps_eq ops name ip ip2 h)
  · have hid : updateOps ops name ip = ops := by
      induction ops with
      | nil => rfl
      | cons x xs ih =>
        obtain ⟨n, op⟩ := x
        by_cases hn : n = name
        · exact absurd (by simp [hn]) h
        · simp only [updateOps, if_neg hn]
          rw [ih (by intro hc; exact h (List.mem_cons_of_mem _ hc))]
    rw [hid]
    split <;> omega

theorem totalCount_assignIp_le (instances : List (String × GceInstance))
    (ops : List (String × Operation)) (ip ip2 : String) :
    totalCount ip2 (assignIp instances ops ip) ≤
      totalCount ip2 ops + (if ip2 = ip then 1 else 0) := by
  cases hf : instances.find?
      (fun p => instanceCost p ops == minAliasIps instances ops) with
  | none =>
    have hid : assignIp instances ops ip = ops := by
      unfold assignIp
      rw [hf]
    rw [hid]
    split <;> omega
  | some q =>
    have hup : assignIp instances ops ip = updateOps ops q.1 ip := by
      unfold assignIp
      rw [hf]
    rw [hup]
    exact totalCount_updateOps_le ops q.1 ip ip2

theorem totalCount_assignIp_eq (instances : List (String × GceInstance))
    (ops : List (String × Operation)) (ip ip2 : String) (h : instances ≠ [])
    (hkeys : ops.map Prod.fst = instances.map Prod.fst) :
    totalCount ip2 (assignIp instances ops ip) =
      totalCount ip2 ops + (if ip2 = ip then 1 else 0) := by
  obtain ⟨q, hq, _, _, heq⟩ := assignIp_spec instances ops ip h
  rw [heq]
  apply totalCount_updateOps_eq
  rw [hkeys]
  exact List.mem_map_of_mem Prod.fst hq

theorem totalCount_allocFold_le (instances : List (String × GceInstance))
    (ip2 : String) :
    ∀ (sp : List String) (acc : List (String × Operation)),
      totalCount ip2 (sp.foldl (fun ops ip => assignIp instances ops ip) acc) ≤
        totalCount ip2 acc + sp.count ip2 := by
  intro sp
  induction sp with
  | nil => intro acc; simp
  | cons x xs ih =>
    intro acc
    rw [List.foldl_cons]
    have h1 := ih (assignIp instances acc x)
    have h2 := totalCount_assignIp_le instances acc x ip2
    have h3 : (x :: xs).count ip2 = xs.count ip2 + (if ip2 = x then 1 else 0) := by
      by_cases hip : ip2 = x
      · simp [List.count_cons, hip]
      · simp [List.count_cons, hip]
    rw [h3]
    split at h2 <;> split <;> omega

theorem totalCount_allocFold_eq (instances : List (String × GceInstance))
    (ip2 : String) (h : instances ≠ []) :
    ∀ (sp : List String) (acc : List (String × Operation)),
      acc.map Prod.fst = instances.map Prod.fst →
      totalCount ip2 (sp.foldl (fun ops ip => assignIp instances ops ip) acc) =
        totalCount ip2 acc + sp.count ip2 := by
  intro sp
  induction sp with
  | nil => intro acc _; simp
  | cons x xs ih =>
    intro acc hkeys
    rw [List.foldl_cons]
    have hkeys2 : (assignIp instances acc x).map Prod.fst = instances.map Prod.fst := by
      rw [assignIp_keys, hkeys]
    have h1 := ih (assignIp instances acc x) hkeys2
    have h2 := totalCount_assignIp_eq instances acc x ip2 h hkeys
    have h3 : (x :: xs).count ip2 = xs.count ip2 + (if ip2 = x then 1 else 0) := by
      by_cases hip : ip2 = x
      · simp [List.count_cons, hip]
      · simp [List.count_cons, hip]
    rw [h3, h1, h2]
    omega

theorem totalCount_initOps (instances : List (String × GceInstance)) (ip : String) :
    totalCount ip (initOps instances) = 0 := by
  unfold totalCount initOps
  rw [List.map_map]
  apply List.sum_eq_zero
  intro x hx
  obtain ⟨q, _, rfl⟩ := List.mem_map.mp hx
  rfl

theorem countP_le_totalCount (ip : String) (ops : List (String × Operation)) :
    ops.countP (fun p => p.2.ips.contains ip) ≤ totalCount ip ops := by
  induction ops with
  | nil => exact Nat.le_refl 0
  | cons x xs ih =>
    simp only [totalCount, List.map_cons, List.sum_cons]
    simp only [totalCount] at ih
    by_cases hc : x.2.ips.contains ip
    · have hmem : ip ∈ x.2.ips := by simpa using hc
      have hpos : 0 < x.2.ips.count ip := List.count_pos_iff.mpr hmem
      have hstep : (x :: xs).countP (fun p => p.2.ips.contains ip) =
          xs.countP (fun p => p.2.ips.contains ip) + 1 := by
        simp [List.countP_cons, hmem]
      rw [hstep]
      omega
    · have hnm : ip ∉ x.2.ips := by simpa using hc
      have hstep : (x :: xs).countP (fun p => p.2.ips.contains ip) =
          xs.countP (fun p => p.2.ips.contains ip) := by
        simp [List.countP_cons, hnm]
      rw [hstep]
      omega

theorem totalCount_pos_mem (ip : String) (ops : List (String × Operation))
    (h : 0 < totalCount ip ops) : ∃ p ∈ ops, ip ∈ p.2.ips := by
  induction ops with
  | nil => simp [totalCount] at h
  | cons x xs ih =>
    simp only [totalCount, List.map_cons, List.sum_cons] at h
    by_cases hx : 0 < x.2.ips.count ip
    · exact ⟨x, List.mem_cons_self x xs, List.count_pos_iff.mp hx⟩
    · have hxs : 0 < totalCount ip xs := by
        simp only [totalCount]
        omega
      obtain ⟨p, hp, hm⟩ := ih hxs
      exact ⟨p, List.mem_cons_of_mem x hp, hm⟩

theorem GetSpareIps_nodup (vips : List String)
    (instances : List (String × GceInstance)) :
    (GetSpareIps vips instances).Nodup :=
  List.Nodup.filter _ (List.nodup_dedup vips)

/-- C2: a single grow pass never stages the same address into two different
nodes' Add operations: every address occurs in the Ips list of at most one
entry of the staged operation map. -/
theorem allocate_no_duplicate_assignment (vips : List String)
    (instances : List (String × GceInstance)) (ip : String) :
    (allocateOps instances (GetSpareIps vips instances)).countP
      (fun p => p.2.ips.contains ip) ≤ 1 := by
  have h1 := countP_le_totalCount ip (allocateOps instances (GetSpareIps vips instances))
  have h2 : totalCount ip (allocateOps instances (GetSpareIps vips instances)) ≤
      totalCount ip (initOps instances) + (GetSpareIps vips instances).count ip := by
    unfold allocateOps
    exact totalCount_allocFold_le instances ip (GetSpareIps vips instances)
      (initOps instances)
  have h3 := totalCount_initOps instances ip
  have h4 : (GetSpareIps vips instances).count ip ≤ 1 :=
    List.nodup_iff_count_le_one.mp (GetSpareIps_nodup vips instances) ip
  omega

/-- C3: with at least one instance, a grow pass stages every spare address
into some node's operation, and each spare address (the decomposition
`spare = pre ++ ip :: post` naming the moment it is assigned) goes to an
instance whose current-plus-staged count is minimal at that moment. -/
theorem allocate_spares_exhaustive_and_minimal (vips : List String)
    (instances : List (String × GceInstance)) (h : instances ≠ []) :
    (∀ ip ∈ GetSpareIps vips instances,
      ∃ p ∈ allocateOps instances (GetSpareIps vips instances), ip ∈ p.2.ips) ∧
    (∀ pre ip post, GetSpareIps vips instances = pre ++ ip :: post →
      ∃ q ∈ instances,
        instanceCost q (allocateOps instances pre) =
          minAliasIps instances (allocateOps instances pre) ∧
        (∀ r ∈ instances, minAliasIps instances (allocateOps instances pre) ≤
          instanceCost r (allocateOps instances pre)) ∧
        allocateOps instances (pre ++ [ip]) =
          updateOps (allocateOps instances pre) q.1 ip) := by
  constructor
  · intro ip hip
    have heq : totalCount ip (allocateOps instances (GetSpareIps vips instances)) =
        totalCount ip (initOps instances) + (GetSpareIps vips instances).count ip := by
      unfold allocateOps
      exact totalCount_allocFold_eq instances ip h
        (GetSpareIps vips instances) (initOps instances) (initOps_keys instances)
    have h0 := totalCount_initOps instances ip
    have hcount : 0 < (GetSpareIps vips instances).count ip :=
      List.count_pos_iff.mpr hip
    apply totalCount_pos_mem
    omega
  · intro pre ip post _
    obtain ⟨q, hq, hcost, hmin, heq⟩ :=
      assignIp_spec instances (allocateOps instances pre) ip h
    refine ⟨q, hq, hcost, hmin, ?_⟩
    unfold allocateOps
    rw [List.foldl_append]
    exact heq

/-- Witness for C3: one empty instance and a pool of two addresses. -/
theorem allocate_spares_exhaustive_and_minimal_witness :
    ([(("n" : String), (⟨"n", "nic0", "fp", "net", []⟩ : GceInstance))] ≠ []) ∧
    ((∀ ip ∈ GetSpareIps ["p", "q"]
        [("n", ⟨"n", "nic0", "fp", "net", []⟩)],
      ∃ x ∈ allocateOps [("n", ⟨"n", "nic0", "fp", "net", []⟩)]
          (GetSpareIps ["p", "q"] [("n", ⟨"n", "nic0", "fp", "net", []⟩)]),
        ip ∈ x.2.ips) ∧
    (∀ pre ip post,
      GetSpareIps ["p", "q"] [("n", ⟨"n", "nic0", "fp", "net", []⟩)] =
        pre ++ ip :: post →
      ∃ q ∈ [(("n" : String), (⟨"n", "nic0", "fp", "net", []⟩ : GceInstance))],
        instanceCost q (allocateOps [("n", ⟨"n", "nic0", "fp", "net", []⟩)] pre) =
          minAliasIps [("n", ⟨"n", "nic0", "fp", "net", []⟩)]
            (allocateOps [("n", ⟨"n", "nic0", "fp", "net", []⟩)] pre) ∧
        (∀ r ∈ [(("n" : String), (⟨"n", "nic0", "fp", "net", []⟩ : GceInstance))],
          minAliasIps [("n", ⟨"n", "nic0", "fp", "net", []⟩)]
              (allocateOps [("n", ⟨"n", "nic0", "fp", "net", []⟩)] pre) ≤
            instanceCost r (allocateOps [("n", ⟨"n", "nic0", "fp", "net", []⟩)] pre)) ∧
        allocateOps [("n", ⟨"n", "nic0", "fp", "net", []⟩)] (pre ++ [ip]) =
          updateOps (allocateOps [("n", ⟨"n", "nic0", "fp", "net", []⟩)] pre) q.1 ip)) :=
  ⟨by decide, allocate_spares_exhaustive_and_minimal _ _ (by decide)⟩

/-- C5 counterexample: one instance with no addresses and a one-address pool.
The planning step produces one non-empty operation, but `AllocateIps` returns
0 because the per-operation re-fetch fails, so the returned value is not the
count of nodes with a non-empty planned operation. -/
theorem allocate_return_count_counterexample :
    AllocateIps (fun _ => none) (fun _ => true)
        (some [("n", ⟨"n", "nic0", "fp", "net", []⟩)]) ["p"] = 0 ∧
    ((allocateOps [("n", ⟨"n", "nic0", "fp", "net", []⟩)]
        (GetSpareIps ["p"] [("n", ⟨"n", "nic0", "fp", "net", []⟩)])).filter
      (fun p => decide (0 < p.2.ips.length))).length = 1 := by
  constructor
  · rfl
  · rfl

/-- C5 amended: each pass returns the number of submitted non-empty
operations whose execution reported an actual state change, which is at most
the count of nodes for which a non-empty operation was produced by the
planning step. -/
theorem passes_return_at_most_nonempty_ops (world : String → Option GceInstance)
    (writeOk : String → Bool) (instances : List (String × GceInstance))
    (vips : List String) :
    AllocateIps world writeOk (some instances) vips ≤
      ((allocateOps instances (GetSpareIps vips instances)).filter
        (fun p => decide (0 < p.2.ips.length))).length ∧
    ReduceIps world writeOk (some instances) ≤
      ((reduceOps instances (reduceTargets instances)).filter
        (fun p => decide (0 < p.2.ips.length))).length := by
  constructor
  · simp only [AllocateIps]
    split
    · exact Nat.zero_le _
    · exact executeParallel_le_filter world writeOk _
  · simp only [ReduceIps]
    split
    · exact Nat.zero_le _
    · exact executeParallel_le_filter world writeOk _

end VipManager
